import Mathlib

/-!
Verification of `fermipy/sourcefind.py` (peak detection and iterative source
finding) against its natural-language specification.

The development shallowly embeds the Python module:

* floating-point quantities are embedded as exact rationals (`ℚ`);
* `numpy`/`scipy.ndimage` array operations are embedded over an explicit
  2-D grid (`Map`) given by dimensions and a cell function;
* `scipy.ndimage.filters.maximum_filter(data, footprint=region)` is embedded
  with scipy's default boundary mode `reflect`;
* `scipy.ndimage.label` uses scipy's default structuring element for 2-D
  input, i.e. 4-connectivity, and `scipy.ndimage.find_objects` yields, per
  component, the bounding-box start indices (row start, column start);
* Python's stable `sorted(..., reverse=True)` is embedded as a stable
  insertion sort by descending amplitude;
* the external fitting engine (`gta`), the sky-coordinate conversion and the
  source-name generator are collaborators outside `src/`; they are embedded
  as explicit parameters, and every call the core makes to the engine is
  recorded in an event trace.
-/

/-- WCS information used by `find_peaks`: the code only reads the per-axis
angular pixel scales `input_map.wcs.wcs.cdelt`. -/
structure Wcs where
  cdelt1 : ℚ
  cdelt2 : ℚ

/-- Kernel-computable comparison `a < b` on `ℚ` by cross-multiplication
(denominators are positive). -/
def qLt (a b : ℚ) : Bool := decide (a.num * (b.den : ℤ) < b.num * (a.den : ℤ))

/-- Kernel-computable comparison `a ≤ b` on `ℚ`. -/
def qLe (a b : ℚ) : Bool := decide (a.num * (b.den : ℤ) ≤ b.num * (a.den : ℤ))

/-- Kernel-computable equality test on `ℚ`. -/
def qEqb (a b : ℚ) : Bool := decide (a.num * (b.den : ℤ) = b.num * (a.den : ℤ))

/-- Kernel-computable product on `ℚ`. -/
def qMul (a b : ℚ) : ℚ := mkRat (a.num * b.num) (a.den * b.den)

/-- Kernel-computable quotient on `ℚ`. -/
def qDiv (a b : ℚ) : ℚ := Rat.divInt (a.num * (b.den : ℤ)) ((a.den : ℤ) * b.num)

/-- Kernel-computable binary maximum on `ℚ`. -/
def qMax (a b : ℚ) : ℚ := if qLt a b then b else a

/-- Kernel-computable embedding of `ℤ` into `ℚ`. -/
def qOfInt (n : ℤ) : ℚ := mkRat n 1

/-- Coarse axis scale `max(input_map.wcs.wcs.cdelt)`. -/
def scaleOf (w : Wcs) : ℚ := qMax w.cdelt1 w.cdelt2

/-- A 2-D map object: `counts` is the data array (`dat iy ix`, row-major,
meaningful for `iy < nrow`, `ix < ncol`) together with its WCS. -/
structure Map where
  nrow : ℕ
  ncol : ℕ
  dat : ℕ → ℕ → ℚ
  wcs : Wcs

/-- A detected peak: the Python dict `{ix, iy, skydir, amp}`.  The sky
direction is `SkyCoord.from_pixel(ix, iy, wcs)`; since the WCS is fixed
within one call and `from_pixel` is injective, the sky direction is
represented by the pixel pair `(ix, iy)` itself. -/
structure Peak where
  ix : ℕ
  iy : ℕ
  amp : ℚ
deriving DecidableEq

/-- Python `int()` applied to a rational: truncation toward zero.  This is
`int(min_separation/max(cdelt))` in the source. -/
def pyInt (q : ℚ) : ℤ := q.num.tdiv q.den

/-- Decide `a * sqrt d2 < s` over the reals, for `d2 ≥ 0`, using only
rational arithmetic.  This decides the comparison
`make_pixel_offset(npix)[i,j] * max(cdelt) < min_separation` exactly
(the offset-grid entry is the square root of the integer `d2`). -/
def sqrtCmpLt (a d2 s : ℚ) : Bool :=
  if qLe 0 a then qLt 0 s && qLt (qMul (qMul a a) d2) (qMul s s)
  else if qLt 0 s then true
  else qLt (qMul s s) (qMul (qMul a a) d2)

/-- Footprint of the maximum filter, as the list of offsets `(di, dj)`
(row offset, column offset) whose cell of the offset grid is `true`:
`region_size_pix = int(min_separation/max(cdelt))`,
`deltaxy = make_pixel_offset(region_size_pix*2+3) * max(cdelt)`,
`region = deltaxy < min_separation`.

`fermipy.utils.make_pixel_offset` is not part of `src/`.  Modelled from the
spec: an `npix × npix` grid, centered at its own middle, where each cell
holds the (pixel) distance from the center, here scaled by the coarse axis
scale.  For `npix = 2*R+3` the center is at index `R+1`; `offGrid R` lists
the index offsets `(i - (R+1), j - (R+1))` of that grid in row-major
order. -/
def intRange (n : ℤ) : List ℤ := (List.range n.toNat).map (fun k : ℕ => (k : ℤ))

/-- Row-major enumeration of the index offsets of the `(2R+3) × (2R+3)`
offset grid relative to its center cell `(R+1, R+1)`. -/
def offGrid (R : ℤ) : List (ℤ × ℤ) :=
  (intRange (2 * R + 3)).flatMap (fun i =>
    (intRange (2 * R + 3)).map (fun j => (i - (R + 1), j - (R + 1))))

/-- Offsets of the footprint: the cells of the offset grid whose scaled
distance from the center is below `min_separation`. -/
def footOffsets (s scale : ℚ) : List (ℤ × ℤ) :=
  (offGrid (pyInt (qDiv s scale))).filter
    (fun d => sqrtCmpLt scale (qOfInt (d.1 * d.1 + d.2 * d.2)) s)

/-- Index reflection of scipy's default boundary mode `reflect`
(`d c b a | a b c d | d c b a`): `-1 ↦ 0`, `-2 ↦ 1`, `n ↦ n-1`, … -/
def reflect (n : ℕ) (i : ℤ) : ℕ :=
  let j := i.emod (2 * n)
  (if j < n then j else 2 * n - 1 - j).toNat

/-- Grid value at a (possibly out-of-range) index pair, with the `reflect`
boundary extension applied on each axis. -/
def datAt (m : Map) (iy ix : ℤ) : ℚ :=
  m.dat (reflect m.nrow iy) (reflect m.ncol ix)

/-- Values sampled by the maximum filter at pixel `p = (iy, ix)`: the grid
values (boundary-reflected) at each footprint offset from `p`. -/
def filterVals (m : Map) (s : ℚ) (p : ℕ × ℕ) : List ℚ :=
  (footOffsets s (scaleOf m.wcs)).map (fun d =>
    datAt m ((p.1 : ℤ) + d.1) ((p.2 : ℤ) + d.2))

/-- Result of `scipy.ndimage.filters.maximum_filter(data, footprint=region)`
at pixel `p`: the maximum of the sampled values.  `none` when the footprint
is all-false (which scipy does not support; it only arises for
`min_separation ≤ 0`, a degenerate configuration no theorem relies on). -/
def filterMax (m : Map) (s : ℚ) (p : ℕ × ℕ) : Option ℚ :=
  match filterVals m s p with
  | [] => none
  | v :: vs => some (vs.foldl qMax v)

/-- Pixel of the boolean array `maximum_filter(data, footprint=region) == data`. -/
def localMax (m : Map) (s : ℚ) (p : ℕ × ℕ) : Bool :=
  match filterMax m s p with
  | none => false
  | some v => qEqb v (m.dat p.1 p.2)

/-- Pixel of the thresholded local-maximum mask: the array `local_max` after
`local_max[data < threshold] = False`.  The mask only exists over the grid
extent, hence the bounds conjuncts. -/
def maskPix (m : Map) (T s : ℚ) (p : ℕ × ℕ) : Bool :=
  decide (p.1 < m.nrow) && decide (p.2 < m.ncol) && localMax m s p &&
    !(qLt (m.dat p.1 p.2) T)

/-- All grid pixels `(iy, ix)` in raster (row-major) order. -/
def rasterPixels (m : Map) : List (ℕ × ℕ) :=
  (List.range m.nrow).flatMap (fun iy =>
    (List.range m.ncol).map (fun ix => (iy, ix)))

/-- The 4-neighbours of a pixel (scipy's default structuring element for
`scipy.ndimage.label` on 2-D input is the cross, i.e. 4-connectivity). -/
def nbrs (p : ℕ × ℕ) : List (ℕ × ℕ) :=
  [(p.1 + 1, p.2), (p.1, p.2 + 1)] ++
    (if 0 < p.1 then [(p.1 - 1, p.2)] else []) ++
    (if 0 < p.2 then [(p.1, p.2 - 1)] else [])

/-- One step of connected-component growth inside the mask: add every
in-mask 4-neighbour of the current set. -/
def grow (m : Map) (T s : ℚ) (S : List (ℕ × ℕ)) : List (ℕ × ℕ) :=
  (S ++ S.flatMap (fun p => (nbrs p).filter (fun q => maskPix m T s q))).dedup

/-- All pixels reachable from `p` through 4-connected chains of mask pixels.
`nrow * ncol` growth steps saturate: a shortest connecting chain visits each
pixel at most once. -/
def reach (m : Map) (T s : ℚ) (p : ℕ × ℕ) : List (ℕ × ℕ) :=
  (grow m T s)^[m.nrow * m.ncol] [p]

/-- Raster (row-major) order on pixels. -/
def rasterLt (q p : ℕ × ℕ) : Bool :=
  decide (q.1 < p.1) || (decide (q.1 = p.1) && decide (q.2 < p.2))

/-- Pixel `p` is the raster-first pixel of a connected component of the
mask; `scipy.ndimage.label` then assigns this component its own label. -/
def compMin (m : Map) (T s : ℚ) (p : ℕ × ℕ) : Bool :=
  maskPix m T s p && (reach m T s p).all (fun q => !(rasterLt q p))

/-- One representative pixel per labelled component, in label order
(scipy labels components in raster order of their first pixel). -/
def compMins (m : Map) (T s : ℚ) : List (ℕ × ℕ) :=
  (rasterPixels m).filter (compMin m T s)

/-- Minimum row index of the component of `p` (the `s[0].start` of the
corresponding `find_objects` slice). -/
def bboxRow (m : Map) (T s : ℚ) (p : ℕ × ℕ) : ℕ :=
  ((reach m T s p).map Prod.fst).foldl min p.1

/-- Minimum column index of the component of `p` (the `s[1].start` of the
corresponding `find_objects` slice). -/
def bboxCol (m : Map) (T s : ℚ) (p : ℕ × ℕ) : ℕ :=
  ((reach m T s p).map Prod.snd).foldl min p.2

/-- The peak dict built for one component: location is the bounding-box
origin `(s[1].start, s[0].start)` and the amplitude is
`data[s[0].start, s[1].start]`. -/
def peakOf (m : Map) (T s : ℚ) (p : ℕ × ℕ) : Peak :=
  { ix := bboxCol m T s p
    iy := bboxRow m T s p
    amp := m.dat (bboxRow m T s p) (bboxCol m T s p) }

/-- Stable descending insertion: place `x` after every element of strictly
larger amplitude and before the first element of amplitude `≤ x.amp`. -/
def insertDesc (x : Peak) : List Peak → List Peak
  | [] => [x]
  | y :: ys => if qLt x.amp y.amp then y :: insertDesc x ys else x :: y :: ys

/-- Stable sort by amplitude, descending: the embedding of
`sorted(peaks, key=lambda t: t['amp'], reverse=True)` (Python's sort is
stable, and any stable sort computes the same list). -/
def sortDesc : List Peak → List Peak
  | [] => []
  | x :: xs => insertDesc x (sortDesc xs)

/-- The embedding of `fermipy.sourcefind.find_peaks`. -/
def find_peaks (m : Map) (threshold min_separation : ℚ) : List Peak :=
  sortDesc ((compMins m threshold min_separation).map
    (peakOf m threshold min_separation))

/-- Squared angular distance between two pixels `(iy, ix)` under the map's
coarse axis scale — the scale `find_peaks` itself uses to convert pixel
offsets into angular distances when building its footprint. -/
def angdist2 (w : Wcs) (p q : ℕ × ℕ) : ℚ :=
  qMul (qMul (scaleOf w) (scaleOf w))
    (qOfInt (((p.1 : ℤ) - q.1) * ((p.1 : ℤ) - q.1) +
      ((p.2 : ℤ) - q.2) * ((p.2 : ℤ) - q.2)))

/-- Pixel `p = (iy, ix)` is a strict local maximum of the map over the
filter footprint: in bounds, and strictly larger than the (reflected)
value at every non-zero footprint offset. -/
def strictMax (m : Map) (s : ℚ) (p : ℕ × ℕ) : Bool :=
  decide (p.1 < m.nrow) && decide (p.2 < m.ncol) &&
    (footOffsets s (scaleOf m.wcs)).all (fun d =>
      decide (d = ((0 : ℤ), (0 : ℤ))) ||
        qLt (datAt m ((p.1 : ℤ) + d.1) ((p.2 : ℤ) + d.2)) (m.dat p.1 p.2))

/-- Pixel `p` is a single-pixel (non-plateau) local maximum of the mask:
a mask pixel none of whose 4-neighbours is a mask pixel, i.e. its labelled
component is the singleton `{p}`. -/
def singleMax (m : Map) (T s : ℚ) (p : ℕ × ℕ) : Bool :=
  maskPix m T s p && (nbrs p).all (fun q => !(maskPix m T s q))

/-- Python list slicing `l[:k]` for an arbitrary (possibly negative) `k`. -/
def pySlice (l : List α) (k : ℤ) : List α :=
  if 0 ≤ k then l.take k.toNat else l.take (l.length - (-k).toNat)

/-- One call the `SourceFinder` core makes to the external fitting engine
`gta` (or, for `roiGet`, one read from its catalog).  The round label
`'sourcefind_%02i' % iiter` is represented by the round number itself and
the spectral dictionary passed to `add_source` by its varying fields:
the prefactor `1E-13 * amp.counts[p['iy'], p['ix']]` and the sky direction
(as the pixel pair `(ix, iy)`; `ra`/`dec` are fixed functions of it). -/
inductive Ev where
  | tsmap (iiter : ℕ)
  | add (name : String) (prefactor : ℚ) (skydir : ℕ × ℕ) (fittable : Bool)
  | free (name : String) (fittable : Bool)
  | fit
  | roiGet (name : String)
deriving DecidableEq

/-- The two maps of the `gta.tsmap` result that `_iterate` reads. -/
structure TsOut where
  sqrt_ts : Map
  amplitude : Map

/-- The external fitting engine, abstracted as a deterministic collaborator:
its response to a `tsmap` call and to a catalog read `gta.roi[name]` may
depend on the whole history of calls made so far (the engine is stateful;
a deterministic stateful engine is exactly a function of its call history).
`Src` is the engine's type of fitted source records. -/
structure Engine (Src : Type) where
  tsOut : List Ev → ℕ → TsOut
  roi : List Ev → String → Src

/-- The `SourceFinder` configuration fields read by `find_sources` and
`_iterate` (`self.config[...]`). -/
structure Config where
  max_iter : ℤ
  sqrt_ts_threshold : ℚ
  min_separation : ℚ
  sources_per_iter : ℤ
  localize : Bool

/-- Per-call keyword overrides: `kwargs.get(key, self.config[key])`. -/
structure Opts where
  max_iter : Option ℤ := none
  sqrt_ts_threshold : Option ℚ := none
  min_separation : Option ℚ := none
  sources_per_iter : Option ℤ := none
  localize : Option Bool := none

/-- Resolved `max_iter`. -/
def resMaxIter (c : Config) (k : Opts) : ℤ := k.max_iter.getD c.max_iter

/-- Resolved `sqrt_ts_threshold`. -/
def resThreshold (c : Config) (k : Opts) : ℚ :=
  k.sqrt_ts_threshold.getD c.sqrt_ts_threshold

/-- Resolved `min_separation`. -/
def resMinSep (c : Config) (k : Opts) : ℚ :=
  k.min_separation.getD c.min_separation

/-- Resolved `sources_per_iter`. -/
def resSpi (c : Config) (k : Opts) : ℤ :=
  k.sources_per_iter.getD c.sources_per_iter

/-- The peak list of round `i`:
`find_peaks(m['sqrt_ts'], threshold, min_separation)`. -/
def roundPeaks {Src : Type} (eng : Engine Src) (c : Config) (k : Opts)
    (hist : List Ev) (i : ℕ) : List Peak :=
  find_peaks (eng.tsOut hist i).sqrt_ts (resThreshold c k) (resMinSep c k)

/-- The peaks promoted to sources in round `i`: `peaks[:sources_per_iter]`. -/
def promotedPeaks {Src : Type} (eng : Engine Src) (c : Config) (k : Opts)
    (hist : List Ev) (i : ℕ) : List Peak :=
  pySlice (roundPeaks eng c k hist i) (resSpi c k)

/-- The `names` list accumulated by the registration loop of round `i`:
one generated name per promoted peak, in promotion order. -/
def roundNames {Src : Type} (eng : Engine Src) (nameOf : ℕ × ℕ → String)
    (c : Config) (k : Opts) (hist : List Ev) (i : ℕ) : List String :=
  (promotedPeaks eng c k hist i).map (fun p => nameOf (p.ix, p.iy))

/-- The seed normalization of a promoted peak:
`1E-13 * amp.counts[p['iy'], p['ix']]`. -/
def prefactorOf (amp : Map) (p : Peak) : ℚ :=
  qMul (mkRat 1 (10 ^ 13)) (amp.dat p.iy p.ix)

/-- The registration loop
`for p in peaks[:sources_per_iter]: name = create_source_name(...);
names += [name]; gta.add_source(name, src_dict, free=True)`, accumulating
the `names` list and the engine calls it makes.  `nameOf` is
`fermipy.utils.create_source_name` composed with `SkyCoord.from_pixel`
(the name generator lives outside `src/`; it is kept abstract). -/
def registerLoop (nameOf : ℕ × ℕ → String) (amp : Map)
    (ps : List Peak) : List String × List Ev :=
  ps.foldl (fun acc p =>
    (acc.1 ++ [nameOf (p.ix, p.iy)],
     acc.2 ++ [Ev.add (nameOf (p.ix, p.iy)) (prefactorOf amp p) (p.ix, p.iy) true]))
    ([], [])

/-- The collection loop `for name in names: srcs.append(gta.roi[name])`,
threading the trace through each catalog read. -/
def collect {Src : Type} (eng : Engine Src) :
    List String → List Src × List Ev → List Src × List Ev
  | [], st => st
  | n :: rest, st =>
    collect eng rest (st.1 ++ [eng.roi st.2 n], st.2 ++ [Ev.roiGet n])

/-- The embedding of `SourceFinder._iterate`: one detection round.  Returns
the round's source records and the full event trace (input history plus the
calls this round makes, in program order). -/
def _iterate {Src : Type} (eng : Engine Src) (nameOf : ℕ × ℕ → String)
    (c : Config) (k : Opts) (hist : List Ev) (i : ℕ) : List Src × List Ev :=
  let hist1 := hist ++ [Ev.tsmap i]
  let reg := registerLoop nameOf (eng.tsOut hist i).amplitude
    (promotedPeaks eng c k hist i)
  let hist2 := hist1 ++ reg.2
  let hist3 := hist2 ++ reg.1.map (fun n => Ev.free n false)
  let hist4 := hist3 ++
    reg.1.flatMap (fun n => [Ev.free n true, Ev.fit, Ev.free n false])
  collect eng reg.1 ([], hist4)

/-- The round loop of `find_sources`:
`for i in range(max_iter): srcs = _iterate(...); o['sources'] += srcs;
if len(srcs) == 0: break`. -/
def findLoop {Src : Type} (eng : Engine Src) (nameOf : ℕ × ℕ → String)
    (c : Config) (k : Opts) :
    List ℕ → List Src → List Ev → List Src × List Ev
  | [], acc, hist => (acc, hist)
  | i :: rest, acc, hist =>
    let r := _iterate eng nameOf c k hist i
    if r.1.length = 0 then (acc ++ r.1, r.2)
    else findLoop eng nameOf c k rest (acc ++ r.1) r.2

/-- The embedding of `SourceFinder.find_sources`: the accumulated source
records (`o['sources']`) and the full engine-call trace. -/
def find_sources {Src : Type} (eng : Engine Src) (nameOf : ℕ × ℕ → String)
    (c : Config) (k : Opts) : List Src × List Ev :=
  findLoop eng nameOf c k (List.range (resMaxIter c k).toNat) [] []

/-- Recognizer for `tsmap` events. -/
def isTsmapEv : Ev → Bool
  | .tsmap _ => true
  | _ => false

/-- Number of detection rounds started: one `gta.tsmap` call opens each
round. -/
def countTsmap (l : List Ev) : ℕ := (l.filter isTsmapEv).length

/-- Recognizer for `add_source` events, projecting the registered name. -/
def addName : Ev → Option String
  | .add n _ _ _ => some n
  | _ => none

/-- Build a `Map` from an explicit row-major list of rows (missing cells
read as `0`), with the given WCS. -/
def mapGrid (rows : List (List ℚ)) (w : Wcs) : Map :=
  { nrow := rows.length
    ncol := (rows.getD 0 []).length
    dat := fun iy ix => (rows.getD iy []).getD ix 0
    wcs := w }

/-- Square pixels of 1 degree. -/
def w11 : Wcs := ⟨1, 1⟩

/-- The rational `3/2`. -/
def q32 : ℚ := mkRat 3 2

/-- The rational `1/2`. -/
def qhalf : ℚ := mkRat 1 2

/-- A 4×4 grid holding two equal-amplitude pixels in diagonally adjacent
positions `(iy, ix) = (1, 2)` and `(2, 1)`. -/
def gridDiag : Map :=
  mapGrid [[0, 0, 0, 0], [0, 0, 10, 0], [0, 10, 0, 0], [0, 0, 0, 0]] w11

/-- A 4×4 grid holding an L-shaped plateau of value 10 at
`(1, 2), (2, 2), (2, 1)`; its bounding-box origin `(1, 1)` holds `0`. -/
def gridL : Map :=
  mapGrid [[0, 0, 0, 0], [0, 0, 10, 0], [0, 10, 10, 0], [0, 0, 0, 0]] w11

/-- A 3×3 grid with a single peak of value 10 at `(1, 1)`. -/
def gridSingle : Map :=
  mapGrid [[0, 0, 0], [0, 10, 0], [0, 0, 0]] w11

/-- A 3×6 grid with two isolated strict maxima: 10 at `(1, 1)` and 8 at
`(1, 4)`. -/
def gridSep : Map :=
  mapGrid [[0, 0, 0, 0, 0, 0], [0, 10, 0, 0, 8, 0], [0, 0, 0, 0, 0, 0]] w11

/-- A 1×3 grid `[5, 3, 5]`. -/
def gridRow535 : Map := mapGrid [[5, 3, 5]] w11

/-- A 1×3 all-zero grid. -/
def zeroRow : Map := mapGrid [[0, 0, 0]] w11

/-- A 1×5 grid `[10, 0, 8, 0, 6]` with three well-separated values. -/
def gridRow3pk : Map := mapGrid [[10, 0, 8, 0, 6]] w11

/-- Engine stub for the round-loop claims: round 0 yields the two-source
grid `[10, 0, 7]`, every later round an all-zero grid.  The catalog read
returns the queried name. -/
def E4 : Engine String :=
  { tsOut := fun _ i => if i = 0
      then ⟨mapGrid [[10, 0, 7]] w11, mapGrid [[10, 0, 7]] w11⟩
      else ⟨zeroRow, zeroRow⟩
    roi := fun _ n => n }

/-- Engine stub whose significance grid always holds the three peaks
`10, 8, 6` of `gridRow3pk`. -/
def E5 : Engine String :=
  { tsOut := fun _ _ => ⟨gridRow3pk, gridRow3pk⟩
    roi := fun _ n => n }

/-- Engine stub that always yields an all-zero grid (no peaks in any
round). -/
def E0 : Engine String :=
  { tsOut := fun _ _ => ⟨zeroRow, zeroRow⟩
    roi := fun _ n => n }

/-- A concrete name generator: encode the pixel coordinates. -/
def nameOfPix : ℕ × ℕ → String :=
  fun pr => Nat.repr pr.1 ++ "_" ++ Nat.repr pr.2

/-- A colliding name generator: a `create_source_name` whose truncated
coordinate encoding maps every sky direction of interest to one string
(the spec itself notes that insufficient precision collides names). -/
def nameOfConst : ℕ × ℕ → String := fun _ => "PS"

/-- Base configuration for the `SourceFinder` claims: threshold 5,
`min_separation = 1/2` (so, at 1-degree pixels, the footprint is the sole
center pixel and every above-threshold pixel is a peak), two sources per
round, three rounds. -/
def cfgBase : Config :=
  { max_iter := 3, sqrt_ts_threshold := 5, min_separation := qhalf
    sources_per_iter := 2, localize := false }

theorem qLt_iff (a b : ℚ) : qLt a b = true ↔ a < b := by
  rw [qLt, decide_eq_true_iff]; exact Rat.lt_def.symm

theorem qLe_iff (a b : ℚ) : qLe a b = true ↔ a ≤ b := by
  rw [qLe, decide_eq_true_iff]; exact Rat.le_def.symm

theorem qEqb_iff (a b : ℚ) : qEqb a b = true ↔ a = b := by
  rw [qEqb, decide_eq_true_iff]; exact Rat.eq_iff_mul_eq_mul.symm

theorem qLt_false_iff (a b : ℚ) : qLt a b = false ↔ b ≤ a := by
  rw [← Bool.not_eq_true, qLt_iff]; exact not_lt

theorem qMul_eq (a b : ℚ) : qMul a b = a * b := by
  rw [qMul, Rat.mkRat_eq_divInt, Nat.cast_mul,
    ← Rat.divInt_mul_divInt _ _ (by exact_mod_cast a.den_nz)
      (by exact_mod_cast b.den_nz),
    Rat.num_divInt_den, Rat.num_divInt_den]

theorem qDiv_eq (a b : ℚ) : qDiv a b = a / b := by
  rw [qDiv]
  conv_rhs => rw [← Rat.num_divInt_den a, ← Rat.num_divInt_den b]
  rw [Rat.divInt_div_divInt]

theorem qMax_eq (a b : ℚ) : qMax a b = max a b := by
  rw [qMax]
  rcases lt_or_le a b with h | h
  · rw [if_pos ((qLt_iff a b).mpr h), max_eq_right h.le]
  · rw [if_neg (by rw [Bool.not_eq_true]; exact (qLt_false_iff a b).mpr h),
      max_eq_left h]

theorem qOfInt_eq (n : ℤ) : qOfInt n = (n : ℚ) := by simp [qOfInt]

theorem mem_insertDesc {x a : Peak} {l : List Peak} :
    a ∈ insertDesc x l ↔ a = x ∨ a ∈ l := by
  induction l with
  | nil => simp [insertDesc]
  | cons y ys ih =>
    rw [insertDesc]
    by_cases h : qLt x.amp y.amp = true
    · rw [if_pos h]; simp only [List.mem_cons, ih]; tauto
    · rw [if_neg h]; exact List.mem_cons

theorem mem_sortDesc {a : Peak} {l : List Peak} : a ∈ sortDesc l ↔ a ∈ l := by
  induction l with
  | nil => simp [sortDesc]
  | cons x xs ih => simp [sortDesc, mem_insertDesc, ih]

theorem length_insertDesc (x : Peak) (l : List Peak) :
    (insertDesc x l).length = l.length + 1 := by
  induction l with
  | nil => rfl
  | cons y ys ih =>
    by_cases h : qLt x.amp y.amp = true
    · simp [insertDesc, h, ih]
    · simp [insertDesc, h]

theorem length_sortDesc (l : List Peak) : (sortDesc l).length = l.length := by
  induction l with
  | nil => rfl
  | cons x xs ih => simp [sortDesc, length_insertDesc, ih]

theorem pairwise_insertDesc {x : Peak} {l : List Peak}
    (h : List.Pairwise (fun a b => b.amp ≤ a.amp) l) :
    List.Pairwise (fun a b => b.amp ≤ a.amp) (insertDesc x l) := by
  induction l with
  | nil => simp [insertDesc]
  | cons y ys ih =>
    rcases List.pairwise_cons.mp h with ⟨hy, hys⟩
    by_cases hc : qLt x.amp y.amp = true
    · rw [insertDesc, if_pos hc]
      refine List.pairwise_cons.mpr ⟨?_, ih hys⟩
      intro z hz
      rcases mem_insertDesc.mp hz with rfl | hz
      · exact ((qLt_iff _ _).mp hc).le
      · exact hy z hz
    · rw [insertDesc, if_neg hc]
      refine List.pairwise_cons.mpr ⟨?_, h⟩
      intro z hz
      rcases List.mem_cons.mp hz with rfl | hz
      · exact (qLt_false_iff _ _).mp (Bool.not_eq_true _ ▸ hc)
      · exact le_trans (hy z hz) ((qLt_false_iff _ _).mp (Bool.not_eq_true _ ▸ hc))

theorem sortDesc_pairwise (l : List Peak) :
    List.Pairwise (fun a b => b.amp ≤ a.amp) (sortDesc l) := by
  induction l with
  | nil => simp [sortDesc]
  | cons x xs ih => exact pairwise_insertDesc ih

/-- C7: for every map, threshold and separation, the list returned by
`find_peaks` is sorted by amplitude in descending order: for all indices
`i < j`, `peaks[i].amp ≥ peaks[j].amp`. -/
theorem find_peaks_sorted_C7 (m : Map) (T s : ℚ) :
    List.Pairwise (fun a b => b.amp ≤ a.amp) (find_peaks m T s) :=
  sortDesc_pairwise _

set_option maxRecDepth 200000

theorem amp_of_mem_find_peaks {m : Map} {T s : ℚ} {p : Peak}
    (h : p ∈ find_peaks m T s) : p.amp = m.dat p.iy p.ix := by
  rw [find_peaks, mem_sortDesc] at h
  rcases List.mem_map.mp h with ⟨q, _, rfl⟩
  rfl

/-- C1 counterexample: on a grid holding two diagonally adjacent pixels of
equal amplitude 10 (threshold 5, `min_separation = 3/2`, 1-degree pixels),
`find_peaks` returns both pixels, each is a single-pixel (non-plateau)
local maximum of the mask — `scipy.ndimage.label`'s default 4-connectivity
keeps a diagonal pair in two distinct singleton components — yet their
angular distance is `√2 < 3/2`, i.e. below the minimum separation. -/
theorem find_peaks_C1_counterexample :
    ({ ix := 2, iy := 1, amp := 10 } : Peak) ∈ find_peaks gridDiag 5 q32 ∧
    ({ ix := 1, iy := 2, amp := 10 } : Peak) ∈ find_peaks gridDiag 5 q32 ∧
    singleMax gridDiag 5 q32 (1, 2) = true ∧
    singleMax gridDiag 5 q32 (2, 1) = true ∧
    angdist2 gridDiag.wcs (1, 2) (2, 1) < q32 * q32 := by
  refine ⟨by decide, by decide, by decide, by decide, ?_⟩
  have h : qLt (angdist2 gridDiag.wcs (1, 2) (2, 1)) (qMul q32 q32) = true := by
    decide
  rw [qMul_eq] at h
  exact (qLt_iff _ _).mp h

/-- C2 counterexample: on the L-shaped plateau grid with threshold 5,
`find_peaks` returns a peak whose reported amplitude is the grid value 0
at the component's bounding-box origin `(1,1)`, which lies outside the
component — so not every returned peak has amplitude `≥ threshold`. -/
theorem find_peaks_C2_counterexample :
    ¬ (∀ p ∈ find_peaks gridL 5 q32, 5 ≤ p.amp) := by
  intro h
  have hm : ({ ix := 1, iy := 1, amp := 0 } : Peak) ∈ find_peaks gridL 5 q32 := by
    decide
  exact absurd (h _ hm) (not_le.mpr ((qLt_iff _ _).mp (by decide)))

/-- C2 amended: every returned peak whose representative pixel belongs to
the thresholded local-maximum mask — in particular the bounding-box origin
of every single-pixel component — has amplitude `≥ threshold`.  (Only a
multi-pixel plateau can place the representative pixel outside the mask.) -/
theorem find_peaks_C2_amp_ge_threshold (m : Map) (T s : ℚ) (p : Peak)
    (hp : p ∈ find_peaks m T s) (hm : maskPix m T s (p.iy, p.ix) = true) :
    T ≤ p.amp := by
  rw [amp_of_mem_find_peaks hp]
  rw [maskPix] at hm
  simp only [Bool.and_eq_true, Bool.not_eq_true'] at hm
  exact (qLt_false_iff _ _).mp hm.2

/-- Witness for the C2 amended theorem at the single-peak grid. -/
theorem find_peaks_C2_amp_witness :
    (5 : ℚ) ≤ ({ ix := 1, iy := 1, amp := 10 } : Peak).amp :=
  find_peaks_C2_amp_ge_threshold gridSingle 5 q32 _ (by decide) (by decide)

/-- C10: `find_peaks` reports, per connected component of the thresholded
local-maximum mask, the bounding-box origin pixel: on the L-shaped plateau
`{(1,2),(2,2),(2,1)}` (one 4-connected component, `compMins` having the
single representative `(1,2)`) the returned peak sits at the origin
`(iy,ix) = (1,1)` with amplitude `grid[1,1] = 0` — a pixel that is not a
member of the component and not a local-maximum pixel (`maskPix` is false
there). -/
theorem find_peaks_C10_bbox_origin :
    find_peaks gridL 5 q32 = [{ ix := 1, iy := 1, amp := 0 }] ∧
    compMins gridL 5 q32 = [(1, 2)] ∧
    maskPix gridL 5 q32 (1, 2) = true ∧
    maskPix gridL 5 q32 (1, 1) = false :=
  ⟨by decide, by decide, by decide, by decide⟩

/-- C3 counterexample: with `min_separation = 1/2` at 1-degree pixels the
footprint is the sole center pixel, so the mask is the whole threshold
superlevel set; on the row `[5, 3, 5]`, raising the threshold from 2 to 4
splits one component into two and the number of returned peaks grows from
1 to 2. -/
theorem find_peaks_C3_counterexample :
    (2 : ℚ) ≤ 4 ∧
    (find_peaks gridRow535 2 qhalf).length <
      (find_peaks gridRow535 4 qhalf).length :=
  ⟨(qLe_iff _ _).mp (by decide), by decide⟩

theorem reflect_of_lt {n p : ℕ} (h : p < n) : reflect n (p : ℤ) = p := by
  rw [reflect]
  have h1 : (p : ℤ).emod (2 * n) = p :=
    Int.emod_eq_of_lt (by positivity) (by exact_mod_cast by omega)
  rw [h1, if_pos (by exact_mod_cast h)]
  omega

theorem foldl_qMax_init (l : List ℚ) (a x : ℚ) (h : x ≤ a) :
    x ≤ l.foldl qMax a := by
  induction l generalizing a with
  | nil => exact h
  | cons b bs ih =>
    exact ih (qMax a b) (le_trans h (by rw [qMax_eq]; exact le_max_left a b))

theorem foldl_qMax_mem (l : List ℚ) (x : ℚ) (h : x ∈ l) :
    ∀ a, x ≤ l.foldl qMax a := by
  induction l with
  | nil => cases h
  | cons b bs ih =>
    intro a
    rcases List.mem_cons.mp h with rfl | hx
    · exact foldl_qMax_init bs (qMax a x) x (by rw [qMax_eq]; exact le_max_right a x)
    · exact ih hx (qMax a b)

theorem localMax_le {m : Map} {s : ℚ} {p : ℕ × ℕ} (h : localMax m s p = true)
    {d : ℤ × ℤ} (hd : d ∈ footOffsets s (scaleOf m.wcs)) :
    datAt m ((p.1 : ℤ) + d.1) ((p.2 : ℤ) + d.2) ≤ m.dat p.1 p.2 := by
  rw [localMax] at h
  rcases hfv : filterVals m s p with _ | ⟨v, vs⟩
  · rw [filterMax, hfv] at h
    exact absurd h (by simp)
  · rw [filterMax, hfv] at h
    simp only [] at h
    have heq : vs.foldl qMax v = m.dat p.1 p.2 := (qEqb_iff _ _).mp h
    have hx : datAt m ((p.1 : ℤ) + d.1) ((p.2 : ℤ) + d.2) ∈ filterVals m s p :=
      List.mem_map.mpr ⟨d, hd, rfl⟩
    rw [hfv] at hx
    rcases List.mem_cons.mp hx with hv | hv
    · rw [hv, ← heq]
      exact foldl_qMax_init vs v v le_rfl
    · rw [← heq]
      exact foldl_qMax_mem vs _ hv v

theorem le_pyInt_div {s scale : ℚ} (k : ℕ)
    (hk : (k : ℚ) ≤ s / scale) : (k : ℤ) ≤ pyInt (qDiv s scale) := by
  rw [pyInt, qDiv_eq]
  set q : ℚ := s / scale with hq
  have hq0 : 0 ≤ q := le_trans (by positivity) hk
  have hnum : 0 ≤ q.num := Rat.num_nonneg.mpr hq0
  have hden : (0 : ℤ) < (q.den : ℤ) := by exact_mod_cast q.pos
  rw [Int.tdiv_eq_ediv hnum hden.le, Int.le_ediv_iff_mul_le hden]
  have h2 := Rat.le_def.mp hk
  rw [Rat.num_natCast, Rat.den_natCast] at h2
  simpa using h2

theorem sq_cast_natAbs (z : ℤ) :
    ((z.natAbs : ℚ)) * (z.natAbs : ℚ) = ((z * z : ℤ) : ℚ) := by
  have h : ((z.natAbs * z.natAbs : ℕ) : ℤ) = z * z := Int.natAbs_mul_self
  calc ((z.natAbs : ℚ)) * (z.natAbs : ℚ)
      = (((z.natAbs * z.natAbs : ℕ) : ℤ) : ℚ) := by
        rw [Int.cast_natCast, Nat.cast_mul]
    _ = ((z * z : ℤ) : ℚ) := by rw [h]

theorem natAbs_le_pyInt {s scale : ℚ} (hsc : 0 < scale) (hs : 0 < s)
    (z : ℤ) (hz : scale * scale * ((z * z : ℤ) : ℚ) < s * s) :
    (z.natAbs : ℤ) ≤ pyInt (qDiv s scale) := by
  apply le_pyInt_div
  rw [le_div_iff₀ hsc]
  by_contra hcon
  push_neg at hcon
  have h1 : 0 ≤ s := hs.le
  have h2 : s * s ≤ ((z.natAbs : ℚ) * scale) * ((z.natAbs : ℚ) * scale) :=
    mul_self_le_mul_self h1 hcon.le
  have h3 : ((z.natAbs : ℚ) * scale) * ((z.natAbs : ℚ) * scale)
      = scale * scale * ((z * z : ℤ) : ℚ) := by
    rw [← sq_cast_natAbs]; ring
  rw [h3] at h2
  exact absurd (lt_of_le_of_lt h2 hz) (lt_irrefl _)

theorem mem_intRange {n z : ℤ} (h0 : 0 ≤ z) (hn : z < n) : z ∈ intRange n := by
  rw [intRange]
  have hb : z.toNat < n.toNat := by omega
  have hz : ((z.toNat : ℕ) : ℤ) = z := by omega
  have hm := List.mem_map_of_mem (fun k : ℕ => (k : ℤ)) (List.mem_range.mpr hb)
  simpa only [hz] using hm

theorem mem_offGrid {R di dj : ℤ} (h1 : -(R + 1) ≤ di) (h2 : di ≤ R + 1)
    (h3 : -(R + 1) ≤ dj) (h4 : dj ≤ R + 1) : (di, dj) ∈ offGrid R := by
  rw [offGrid]
  apply List.mem_flatMap.mpr
  refine ⟨di + (R + 1), mem_intRange (by omega) (by omega), ?_⟩
  apply List.mem_map.mpr
  refine ⟨dj + (R + 1), mem_intRange (by omega) (by omega), ?_⟩
  simp only [Prod.mk.injEq]
  omega

theorem mem_footOffsets {s scale : ℚ} (hsc : 0 < scale) (hs : 0 < s)
    (di dj : ℤ)
    (h2 : scale * scale * ((di * di + dj * dj : ℤ) : ℚ) < s * s) :
    (di, dj) ∈ footOffsets s scale := by
  have hdi2 : scale * scale * ((di * di : ℤ) : ℚ) < s * s := by
    refine lt_of_le_of_lt ?_ h2
    have : ((di * di : ℤ) : ℚ) ≤ ((di * di + dj * dj : ℤ) : ℚ) := by
      exact_mod_cast by nlinarith [mul_self_nonneg dj]
    nlinarith [mul_self_nonneg scale]
  have hdj2 : scale * scale * ((dj * dj : ℤ) : ℚ) < s * s := by
    refine lt_of_le_of_lt ?_ h2
    have : ((dj * dj : ℤ) : ℚ) ≤ ((di * di + dj * dj : ℤ) : ℚ) := by
      exact_mod_cast by nlinarith [mul_self_nonneg di]
    nlinarith [mul_self_nonneg scale]
  have hdiR : (di.natAbs : ℤ) ≤ pyInt (qDiv s scale) := natAbs_le_pyInt hsc hs di hdi2
  have hdjR : (dj.natAbs : ℤ) ≤ pyInt (qDiv s scale) := natAbs_le_pyInt hsc hs dj hdj2
  have hR0 : 0 ≤ pyInt (qDiv s scale) := le_trans (by positivity) hdiR
  have hcond : sqrtCmpLt scale (qOfInt (di * di + dj * dj)) s = true := by
    rw [sqrtCmpLt, if_pos ((qLe_iff 0 scale).mpr hsc.le), Bool.and_eq_true]
    refine ⟨(qLt_iff 0 s).mpr hs, ?_⟩
    apply (qLt_iff _ _).mpr
    rw [qMul_eq, qMul_eq, qMul_eq, qOfInt_eq]
    exact h2
  rw [footOffsets]
  apply List.mem_filter.mpr
  set R : ℤ := pyInt (qDiv s scale) with hR
  exact ⟨mem_offGrid (by omega) (by omega) (by omega) (by omega), hcond⟩

/-- C1 amended: two distinct peaks returned by one `find_peaks` call whose
pixels are strict local maxima over the filter footprint (strictly larger
than every other sampled value; for isolated maxima this is the natural
reading of "isolated") lie at squared angular distance at least
`min_separation²`.  The unamended claim, phrased for single-pixel
(singleton-component) maxima, fails: two equal-valued mask pixels in
diagonally adjacent positions form two singleton components under
`scipy.ndimage.label`'s default 4-connectivity yet lie `√2` pixels apart
(see the counterexample). -/
theorem find_peaks_C1_strict_separation (m : Map) (T s : ℚ) (p q : Peak)
    (hsc : 0 < scaleOf m.wcs) (hs : 0 < s)
    (_hp : p ∈ find_peaks m T s) (_hq : q ∈ find_peaks m T s)
    (hps : strictMax m s (p.iy, p.ix) = true)
    (hqs : strictMax m s (q.iy, q.ix) = true)
    (hne : (p.iy, p.ix) ≠ (q.iy, q.ix)) :
    s * s ≤ angdist2 m.wcs (p.iy, p.ix) (q.iy, q.ix) := by
  by_contra hcon
  push_neg at hcon
  rw [angdist2, qMul_eq, qMul_eq, qOfInt_eq] at hcon
  set di : ℤ := (q.iy : ℤ) - (p.iy : ℤ) with hdi
  set dj : ℤ := (q.ix : ℤ) - (p.ix : ℤ) with hdj
  rw [strictMax, Bool.and_eq_true, Bool.and_eq_true] at hps hqs
  have hpy : p.iy < m.nrow := of_decide_eq_true hps.1.1
  have hpx : p.ix < m.ncol := of_decide_eq_true hps.1.2
  have hqy : q.iy < m.nrow := of_decide_eq_true hqs.1.1
  have hqx : q.ix < m.ncol := of_decide_eq_true hqs.1.2
  have hsq : scaleOf m.wcs * scaleOf m.wcs * ((di * di + dj * dj : ℤ) : ℚ)
      < s * s := by
    have he : (di * di + dj * dj : ℤ)
        = (((p.iy : ℤ) - q.iy) * ((p.iy : ℤ) - q.iy) +
           ((p.ix : ℤ) - q.ix) * ((p.ix : ℤ) - q.ix)) := by
      rw [hdi, hdj]; ring
    rw [he]
    exact hcon
  have hsq' : scaleOf m.wcs * scaleOf m.wcs * ((-di * -di + -dj * -dj : ℤ) : ℚ)
      < s * s := by
    have he : (-di * -di + -dj * -dj : ℤ) = (di * di + dj * dj : ℤ) := by ring
    rw [he]
    exact hsq
  have hmem : (di, dj) ∈ footOffsets s (scaleOf m.wcs) :=
    mem_footOffsets hsc hs di dj hsq
  have hmem' : (-di, -dj) ∈ footOffsets s (scaleOf m.wcs) :=
    mem_footOffsets hsc hs (-di) (-dj) hsq'
  have hd0 : ¬ ((di, dj) = ((0 : ℤ), (0 : ℤ))) := by
    intro h0
    rw [Prod.mk.injEq] at h0
    exact hne (by rw [Prod.mk.injEq]; omega)
  have hstep := (List.all_eq_true.mp hps.2) (di, dj) hmem
  rw [Bool.or_eq_true] at hstep
  rcases hstep with h0 | hlt1
  · exact hd0 (of_decide_eq_true h0)
  have hstep' := (List.all_eq_true.mp hqs.2) (-di, -dj) hmem'
  rw [Bool.or_eq_true] at hstep'
  rcases hstep' with h0 | hlt2
  · refine hd0 ?_
    have h0' := of_decide_eq_true h0
    rw [Prod.mk.injEq] at h0'
    rw [Prod.mk.injEq]
    omega
  have e1 : ((p.iy, p.ix).1 : ℤ) + di = ((q.iy : ℕ) : ℤ) := by omega
  have e2 : ((p.iy, p.ix).2 : ℤ) + dj = ((q.ix : ℕ) : ℤ) := by omega
  have e3 : ((q.iy, q.ix).1 : ℤ) + -di = ((p.iy : ℕ) : ℤ) := by omega
  have e4 : ((q.iy, q.ix).2 : ℤ) + -dj = ((p.ix : ℕ) : ℤ) := by omega
  rw [e1, e2] at hlt1
  rw [e3, e4] at hlt2
  have hv1 : datAt m ((q.iy : ℕ) : ℤ) ((q.ix : ℕ) : ℤ) = m.dat q.iy q.ix := by
    rw [datAt, reflect_of_lt hqy, reflect_of_lt hqx]
  have hv2 : datAt m ((p.iy : ℕ) : ℤ) ((p.ix : ℕ) : ℤ) = m.dat p.iy p.ix := by
    rw [datAt, reflect_of_lt hpy, reflect_of_lt hpx]
  rw [hv1] at hlt1
  rw [hv2] at hlt2
  have l1 := (qLt_iff _ _).mp hlt1
  have l2 := (qLt_iff _ _).mp hlt2
  exact absurd (lt_trans l1 l2) (lt_irrefl _)

/-- Witness for the C1 amended theorem: on `gridSep` the two returned
strict maxima at `(1,1)` and `(1,4)` satisfy the separation bound. -/
theorem find_peaks_C1_strict_witness :
    q32 * q32 ≤ angdist2 gridSep.wcs (1, 1) (1, 4) :=
  find_peaks_C1_strict_separation gridSep 5 q32
    { ix := 1, iy := 1, amp := 10 } { ix := 4, iy := 1, amp := 8 }
    ((qLt_iff _ _).mp (by decide)) ((qLt_iff _ _).mp (by decide))
    (by decide) (by decide) (by decide) (by decide) (by decide)

theorem nbrs_dist {x y : ℕ × ℕ} (h : y ∈ nbrs x) :
    (((y.1 : ℤ) - x.1) * ((y.1 : ℤ) - x.1) +
      ((y.2 : ℤ) - x.2) * ((y.2 : ℤ) - x.2)) = 1 := by
  rw [nbrs] at h
  rcases List.mem_append.mp h with h1 | h4
  · rcases List.mem_append.mp h1 with h3 | h2
    · rcases List.mem_cons.mp h3 with rfl | h5
      · push_cast
        ring
      · rcases List.mem_cons.mp h5 with rfl | h6
        · push_cast
          ring
        · cases h6
    · by_cases hx1 : 0 < x.1
      · rw [if_pos hx1] at h2
        rcases List.mem_cons.mp h2 with rfl | h6
        · have hc : ((x.1 - 1 : ℕ) : ℤ) = (x.1 : ℤ) - 1 := by omega
          simp only [hc]
          ring
        · cases h6
      · rw [if_neg hx1] at h2
        cases h2
  · by_cases hx2 : 0 < x.2
    · rw [if_pos hx2] at h4
      rcases List.mem_cons.mp h4 with rfl | h6
      · have hc : ((x.2 - 1 : ℕ) : ℤ) = (x.2 : ℤ) - 1 := by omega
        simp only [hc]
        ring
      · cases h6
    · rw [if_neg hx2] at h4
      cases h4

theorem maskPix_parts {m : Map} {T s : ℚ} {x : ℕ × ℕ}
    (h : maskPix m T s x = true) :
    x.1 < m.nrow ∧ x.2 < m.ncol ∧ localMax m s x = true ∧ T ≤ m.dat x.1 x.2 := by
  rw [maskPix, Bool.and_eq_true, Bool.and_eq_true, Bool.and_eq_true] at h
  refine ⟨of_decide_eq_true h.1.1.1, of_decide_eq_true h.1.1.2, h.1.2, ?_⟩
  have h2 := h.2
  rw [Bool.not_eq_true'] at h2
  exact (qLt_false_iff _ _).mp h2

theorem maskPix_mono {m : Map} {T T' s : ℚ} (hTT : T ≤ T') {x : ℕ × ℕ}
    (h : maskPix m T' s x = true) : maskPix m T s x = true := by
  rw [maskPix, Bool.and_eq_true] at h ⊢
  refine ⟨h.1, ?_⟩
  have h2 := h.2
  rw [Bool.not_eq_true'] at h2 ⊢
  rw [qLt_false_iff] at h2 ⊢
  exact le_trans hTT h2

theorem maskPix_of_parts {m : Map} {T s : ℚ} {x : ℕ × ℕ}
    (h1 : x.1 < m.nrow) (h2 : x.2 < m.ncol) (h3 : localMax m s x = true)
    (h4 : T ≤ m.dat x.1 x.2) : maskPix m T s x = true := by
  rw [maskPix, Bool.and_eq_true, Bool.and_eq_true, Bool.and_eq_true]
  refine ⟨⟨⟨decide_eq_true h1, decide_eq_true h2⟩, h3⟩, ?_⟩
  rw [Bool.not_eq_true', qLt_false_iff]
  exact h4

theorem adj_mask_eq {m : Map} {T s : ℚ} (hsc : 0 < scaleOf m.wcs)
    (hss : scaleOf m.wcs < s) {x y : ℕ × ℕ}
    (hx : maskPix m T s x = true) (hy : maskPix m T s y = true)
    (hadj : y ∈ nbrs x) : m.dat y.1 y.2 = m.dat x.1 x.2 := by
  have hs : 0 < s := lt_trans hsc hss
  obtain ⟨hx1, hx2, hxl, -⟩ := maskPix_parts hx
  obtain ⟨hy1, hy2, hyl, -⟩ := maskPix_parts hy
  have hd := nbrs_dist hadj
  have hsq : scaleOf m.wcs * scaleOf m.wcs *
      ((((y.1 : ℤ) - x.1) * ((y.1 : ℤ) - x.1) +
        ((y.2 : ℤ) - x.2) * ((y.2 : ℤ) - x.2) : ℤ) : ℚ) < s * s := by
    rw [hd]
    rw [Int.cast_one, mul_one]
    exact mul_self_lt_mul_self hsc.le hss
  have hsq' : scaleOf m.wcs * scaleOf m.wcs *
      ((((x.1 : ℤ) - y.1) * ((x.1 : ℤ) - y.1) +
        ((x.2 : ℤ) - y.2) * ((x.2 : ℤ) - y.2) : ℤ) : ℚ) < s * s := by
    have he : (((x.1 : ℤ) - y.1) * ((x.1 : ℤ) - y.1) +
        ((x.2 : ℤ) - y.2) * ((x.2 : ℤ) - y.2) : ℤ)
        = (((y.1 : ℤ) - x.1) * ((y.1 : ℤ) - x.1) +
           ((y.2 : ℤ) - x.2) * ((y.2 : ℤ) - x.2) : ℤ) := by ring
    rw [he]
    exact hsq
  have hm1 : (((y.1 : ℤ) - x.1), ((y.2 : ℤ) - x.2)) ∈
      footOffsets s (scaleOf m.wcs) := mem_footOffsets hsc hs _ _ hsq
  have hm2 : (((x.1 : ℤ) - y.1), ((x.2 : ℤ) - y.2)) ∈
      footOffsets s (scaleOf m.wcs) := mem_footOffsets hsc hs _ _ hsq'
  have b1 := localMax_le hxl hm1
  have b2 := localMax_le hyl hm2
  have e1 : ((x.1 : ℤ) + ((y.1 : ℤ) - x.1)) = ((y.1 : ℕ) : ℤ) := by ring
  have e2 : ((x.2 : ℤ) + ((y.2 : ℤ) - x.2)) = ((y.2 : ℕ) : ℤ) := by ring
  have e3 : ((y.1 : ℤ) + ((x.1 : ℤ) - y.1)) = ((x.1 : ℕ) : ℤ) := by ring
  have e4 : ((y.2 : ℤ) + ((x.2 : ℤ) - y.2)) = ((x.2 : ℕ) : ℤ) := by ring
  rw [e1, e2, datAt, reflect_of_lt hy1, reflect_of_lt hy2] at b1
  rw [e3, e4, datAt, reflect_of_lt hx1, reflect_of_lt hx2] at b2
  exact le_antisymm b1 b2

theorem flatMap_congr_mem {α β : Type} {l : List α} {f g : α → List β}
    (h : ∀ a ∈ l, f a = g a) : l.flatMap f = l.flatMap g := by
  induction l with
  | nil => rfl
  | cons a t ih =>
    rw [List.flatMap_cons, List.flatMap_cons,
      h a (List.mem_cons_self a t), ih (fun b hb => h b (List.mem_cons_of_mem a hb))]

theorem mem_grow {m : Map} {T s : ℚ} {S : List (ℕ × ℕ)} {x : ℕ × ℕ} :
    x ∈ grow m T s S ↔
      x ∈ S ∨ ∃ y ∈ S, x ∈ nbrs y ∧ maskPix m T s x = true := by
  rw [grow, List.mem_dedup, List.mem_append, List.mem_flatMap]
  constructor
  · rintro (h | ⟨y, hy, hx⟩)
    · exact Or.inl h
    · rcases List.mem_filter.mp hx with ⟨hn, hm⟩
      exact Or.inr ⟨y, hy, hn, hm⟩
  · rintro (h | ⟨y, hy, hn, hm⟩)
    · exact Or.inl h
    · exact Or.inr ⟨y, hy, List.mem_filter.mpr ⟨hn, hm⟩⟩

theorem grow_step {m : Map} {T T' s : ℚ} (hsc : 0 < scaleOf m.wcs)
    (hss : scaleOf m.wcs < s) (hTT : T ≤ T') {v : ℚ} (hv : T' ≤ v)
    {S : List (ℕ × ℕ)}
    (hS : ∀ x ∈ S, maskPix m T s x = true ∧ m.dat x.1 x.2 = v) :
    grow m T s S = grow m T' s S ∧
      ∀ x ∈ grow m T s S, maskPix m T s x = true ∧ m.dat x.1 x.2 = v := by
  have hpt : ∀ y ∈ S, ∀ x ∈ nbrs y, maskPix m T s x = maskPix m T' s x := by
    intro y hy x hxn
    cases hx' : maskPix m T' s x with
    | true => exact maskPix_mono hTT hx'
    | false =>
      cases hx : maskPix m T s x with
      | true =>
        exfalso
        have hev : m.dat x.1 x.2 = v := by
          rw [adj_mask_eq hsc hss (hS y hy).1 hx hxn]
          exact (hS y hy).2
        obtain ⟨b1, b2, b3, -⟩ := maskPix_parts hx
        have : maskPix m T' s x = true :=
          maskPix_of_parts b1 b2 b3 (by rw [hev]; exact hv)
        rw [this] at hx'
        cases hx'
      | false => rfl
  have hmask_eq : ∀ x, (x ∈ grow m T s S ↔ x ∈ grow m T' s S) := by
    intro x
    rw [mem_grow, mem_grow]
    constructor
    · rintro (h | ⟨y, hy, hn, hm⟩)
      · exact Or.inl h
      · exact Or.inr ⟨y, hy, hn, (hpt y hy x hn) ▸ hm⟩
    · rintro (h | ⟨y, hy, hn, hm⟩)
      · exact Or.inl h
      · exact Or.inr ⟨y, hy, hn, (hpt y hy x hn).symm ▸ hm⟩
  have heq : grow m T s S = grow m T' s S := by
    rw [grow, grow]
    congr 1
    congr 1
    apply flatMap_congr_mem
    intro y hy
    exact List.filter_congr (fun x hx => hpt y hy x hx)
  refine ⟨heq, ?_⟩
  intro x hx
  rcases mem_grow.mp hx with h | ⟨y, hy, hn, hm⟩
  · exact hS x h
  · refine ⟨hm, ?_⟩
    rw [adj_mask_eq hsc hss (hS y hy).1 hm hn]
    exact (hS y hy).2

theorem reach_transfer {m : Map} {T T' s : ℚ} (hsc : 0 < scaleOf m.wcs)
    (hss : scaleOf m.wcs < s) (hTT : T ≤ T') {p : ℕ × ℕ}
    (hp' : maskPix m T' s p = true) :
    ∀ n : ℕ, (grow m T s)^[n] [p] = (grow m T' s)^[n] [p] ∧
      ∀ x ∈ (grow m T s)^[n] [p],
        maskPix m T s x = true ∧ m.dat x.1 x.2 = m.dat p.1 p.2 := by
  have hv : T' ≤ m.dat p.1 p.2 := (maskPix_parts hp').2.2.2
  intro n
  induction n with
  | zero =>
    refine ⟨rfl, ?_⟩
    intro x hx
    rcases List.mem_singleton.mp hx with rfl
    exact ⟨maskPix_mono hTT hp', rfl⟩
  | succ n ih =>
    rw [Function.iterate_succ_apply', Function.iterate_succ_apply']
    have hstep := grow_step hsc hss hTT hv ih.2
    refine ⟨?_, hstep.2⟩
    rw [hstep.1, ih.1]

theorem compMin_mono {m : Map} {T T' s : ℚ} (hsc : 0 < scaleOf m.wcs)
    (hss : scaleOf m.wcs < s) (hTT : T ≤ T') {p : ℕ × ℕ}
    (h : compMin m T' s p = true) : compMin m T s p = true := by
  rw [compMin, Bool.and_eq_true] at h ⊢
  have hre : reach m T s p = reach m T' s p :=
    (reach_transfer hsc hss hTT h.1 (m.nrow * m.ncol)).1
  exact ⟨maskPix_mono hTT h.1, hre ▸ h.2⟩

theorem length_filter_mono {α : Type} (l : List α) (P P' : α → Bool)
    (h : ∀ x ∈ l, P' x = true → P x = true) :
    (l.filter P').length ≤ (l.filter P).length := by
  induction l with
  | nil => simp
  | cons a t ih =>
    have iht := ih (fun x hx => h x (List.mem_cons_of_mem a hx))
    by_cases hP' : P' a = true
    · rw [List.filter_cons_of_pos hP',
        List.filter_cons_of_pos (h a (List.mem_cons_self a t) hP')]
      simpa using iht
    · rw [List.filter_cons_of_neg (by simpa using hP')]
      cases hP : P a
      · rw [List.filter_cons_of_neg (by simp [hP])]
        exact iht
      · rw [List.filter_cons_of_pos hP]
        exact le_trans iht (Nat.le_succ _)

/-- C3 amended: provided the minimum separation exceeds the coarse pixel
scale (so the footprint contains the 4-neighbours of its center, which
makes every mask component amplitude-constant), raising the threshold never
increases the number of returned peaks.  The unamended claim fails when
`min_separation ≤ max(cdelt)`: the footprint then degenerates to the center
pixel, the mask becomes the whole threshold superlevel set, and raising the
threshold can split a component in two (see the counterexample). -/
theorem find_peaks_C3_threshold_monotone (m : Map) (T T' s : ℚ)
    (hsc : 0 < scaleOf m.wcs) (hss : scaleOf m.wcs < s) (hTT : T ≤ T') :
    (find_peaks m T' s).length ≤ (find_peaks m T s).length := by
  rw [find_peaks, find_peaks, length_sortDesc, length_sortDesc,
    List.length_map, List.length_map, compMins, compMins]
  exact length_filter_mono _ _ _ (fun x _ hx => compMin_mono hsc hss hTT hx)

/-- Witness for the C3 amended theorem on the diagonal-pair grid with
thresholds 5 and 7. -/
theorem find_peaks_C3_monotone_witness :
    (find_peaks gridDiag 7 q32).length ≤ (find_peaks gridDiag 5 q32).length :=
  find_peaks_C3_threshold_monotone gridDiag 5 7 q32
    ((qLt_iff _ _).mp (by decide)) ((qLt_iff _ _).mp (by decide))
    ((qLe_iff _ _).mp (by decide))

theorem registerLoop_eq (nameOf : ℕ × ℕ → String) (amp : Map) (ps : List Peak) :
    registerLoop nameOf amp ps =
      (ps.map (fun p => nameOf (p.ix, p.iy)),
       ps.map (fun p =>
         Ev.add (nameOf (p.ix, p.iy)) (prefactorOf amp p) (p.ix, p.iy) true)) := by
  have hgen : ∀ (l : List Peak) (acc : List String × List Ev),
      l.foldl (fun acc p =>
        (acc.1 ++ [nameOf (p.ix, p.iy)],
         acc.2 ++ [Ev.add (nameOf (p.ix, p.iy)) (prefactorOf amp p) (p.ix, p.iy) true])) acc =
      (acc.1 ++ l.map (fun p => nameOf (p.ix, p.iy)),
       acc.2 ++ l.map (fun p =>
         Ev.add (nameOf (p.ix, p.iy)) (prefactorOf amp p) (p.ix, p.iy) true)) := by
    intro l
    induction l with
    | nil => intro acc; simp
    | cons p t ih =>
      intro acc
      rw [List.foldl_cons, ih]
      simp
  rw [registerLoop, hgen]
  simp

theorem collect_snd {Src : Type} (eng : Engine Src) (names : List String) :
    ∀ st : List Src × List Ev,
      (collect eng names st).2 = st.2 ++ names.map Ev.roiGet := by
  induction names with
  | nil => intro st; simp [collect]
  | cons n rest ih =>
    intro st
    rw [collect, ih]
    simp

theorem _iterate_trace {Src : Type} (eng : Engine Src) (nameOf : ℕ × ℕ → String)
    (c : Config) (k : Opts) (hist : List Ev) (i : ℕ) :
    (_iterate eng nameOf c k hist i).2 =
      hist ++ [Ev.tsmap i]
        ++ (promotedPeaks eng c k hist i).map (fun p =>
             Ev.add (nameOf (p.ix, p.iy))
               (prefactorOf (eng.tsOut hist i).amplitude p) (p.ix, p.iy) true)
        ++ (roundNames eng nameOf c k hist i).map (fun n => Ev.free n false)
        ++ (roundNames eng nameOf c k hist i).flatMap (fun n =>
             [Ev.free n true, Ev.fit, Ev.free n false])
        ++ (roundNames eng nameOf c k hist i).map Ev.roiGet := by
  rw [_iterate, collect_snd]
  rw [registerLoop_eq]
  rw [roundNames]

theorem _iterate_names {Src : Type} (eng : Engine Src) (nameOf : ℕ × ℕ → String)
    (c : Config) (k : Opts) (hist : List Ev) (i : ℕ) :
    (registerLoop nameOf (eng.tsOut hist i).amplitude
      (promotedPeaks eng c k hist i)).1 = roundNames eng nameOf c k hist i := by
  rw [registerLoop_eq, roundNames]

/-- C6: in every round, the engine-call sequence is exactly: one `tsmap`
call; then one `add_source(name, …, free=True)` per promoted peak, in
promotion order (registration as free/fittable sources); then one
`free_source(name, False)` per registered source (the freeze pass); then,
for each registered source in registration order, the isolated-refit block
`free_source(name, True); fit(); free_source(name, False)`; finally the
catalog read-backs.  This is the full trace of `_iterate`. -/
theorem sourcefind_C6_call_sequence {Src : Type} (eng : Engine Src)
    (nameOf : ℕ × ℕ → String) (c : Config) (k : Opts) (hist : List Ev) (i : ℕ) :
    (_iterate eng nameOf c k hist i).2 =
      hist ++ [Ev.tsmap i]
        ++ (promotedPeaks eng c k hist i).map (fun p =>
             Ev.add (nameOf (p.ix, p.iy))
               (prefactorOf (eng.tsOut hist i).amplitude p) (p.ix, p.iy) true)
        ++ (roundNames eng nameOf c k hist i).map (fun n => Ev.free n false)
        ++ (roundNames eng nameOf c k hist i).flatMap (fun n =>
             [Ev.free n true, Ev.fit, Ev.free n false])
        ++ (roundNames eng nameOf c k hist i).map Ev.roiGet :=
  _iterate_trace eng nameOf c k hist i

theorem countTsmap_append (l1 l2 : List Ev) :
    countTsmap (l1 ++ l2) = countTsmap l1 + countTsmap l2 := by
  rw [countTsmap, countTsmap, countTsmap, List.filter_append, List.length_append]

theorem countTsmap_eq_zero {l : List Ev} (h : ∀ e ∈ l, isTsmapEv e = false) :
    countTsmap l = 0 := by
  rw [countTsmap, List.length_eq_zero]
  exact List.filter_eq_nil_iff.mpr (fun e he => by rw [h e he]; exact Bool.false_ne_true)

theorem _iterate_count {Src : Type} (eng : Engine Src) (nameOf : ℕ × ℕ → String)
    (c : Config) (k : Opts) (hist : List Ev) (i : ℕ) :
    countTsmap (_iterate eng nameOf c k hist i).2 = countTsmap hist + 1 := by
  rw [_iterate_trace, countTsmap_append, countTsmap_append, countTsmap_append,
    countTsmap_append, countTsmap_append]
  have h1 : countTsmap [Ev.tsmap i] = 1 := rfl
  have h2 : ∀ (f : Peak → Ev), (∀ p, isTsmapEv (f p) = false) →
      countTsmap ((promotedPeaks eng c k hist i).map f) = 0 := by
    intro f hf
    apply countTsmap_eq_zero
    intro e he
    rcases List.mem_map.mp he with ⟨p, -, rfl⟩
    exact hf p
  have h3 : ∀ (f : String → Ev), (∀ n, isTsmapEv (f n) = false) →
      countTsmap ((roundNames eng nameOf c k hist i).map f) = 0 := by
    intro f hf
    apply countTsmap_eq_zero
    intro e he
    rcases List.mem_map.mp he with ⟨n, -, rfl⟩
    exact hf n
  have h4 : countTsmap ((roundNames eng nameOf c k hist i).flatMap (fun n =>
      [Ev.free n true, Ev.fit, Ev.free n false])) = 0 := by
    apply countTsmap_eq_zero
    intro e he
    rcases List.mem_flatMap.mp he with ⟨n, -, hn⟩
    rcases List.mem_cons.mp hn with rfl | hn
    · rfl
    rcases List.mem_cons.mp hn with rfl | hn
    · rfl
    rcases List.mem_cons.mp hn with rfl | hn
    · rfl
    · cases hn
  have c2 : countTsmap ((promotedPeaks eng c k hist i).map (fun p =>
      Ev.add (nameOf (p.ix, p.iy))
        (prefactorOf (eng.tsOut hist i).amplitude p) (p.ix, p.iy) true)) = 0 :=
    h2 (fun p => Ev.add (nameOf (p.ix, p.iy))
      (prefactorOf (eng.tsOut hist i).amplitude p) (p.ix, p.iy) true)
      (fun p => rfl)
  have c3 : countTsmap ((roundNames eng nameOf c k hist i).map (fun n =>
      Ev.free n false)) = 0 :=
    h3 (fun n => Ev.free n false) (fun n => rfl)
  have c5 : countTsmap ((roundNames eng nameOf c k hist i).map Ev.roiGet) = 0 :=
    h3 Ev.roiGet (fun n => rfl)
  rw [h1, c2, c3, h4, c5]

theorem findLoop_count {Src : Type} (eng : Engine Src) (nameOf : ℕ × ℕ → String)
    (c : Config) (k : Opts) (rounds : List ℕ) :
    ∀ (acc : List Src) (hist : List Ev),
      countTsmap (findLoop eng nameOf c k rounds acc hist).2 ≤
        countTsmap hist + rounds.length := by
  induction rounds with
  | nil => intro acc hist; simp [findLoop]
  | cons i rest ih =>
    intro acc hist
    simp only [findLoop]
    by_cases hlen : (_iterate eng nameOf c k hist i).1.length = 0
    · rw [if_pos hlen]
      have := _iterate_count eng nameOf c k hist i
      simp only [List.length_cons]
      omega
    · rw [if_neg hlen]
      have h1 := ih (acc ++ (_iterate eng nameOf c k hist i).1)
        (_iterate eng nameOf c k hist i).2
      have h2 := _iterate_count eng nameOf c k hist i
      simp only [List.length_cons]
      omega

theorem findLoop_stop {Src : Type} (eng : Engine Src) (nameOf : ℕ × ℕ → String)
    (c : Config) (k : Opts) (i : ℕ) (rest : List ℕ) (acc : List Src)
    (hist : List Ev) (h : (_iterate eng nameOf c k hist i).1 = []) :
    findLoop eng nameOf c k (i :: rest) acc hist =
      (acc, (_iterate eng nameOf c k hist i).2) := by
  simp [findLoop, h]

/-- C4: the round loop of `find_sources` starts at most `max_iter` rounds
(each round opens with exactly one `tsmap` call), and it stops as soon as a
round produces zero sources: the remaining rounds are never run.  In
particular, with `max_iter = 3` and an engine whose grid is empty from
round 2 on (`E4`), exactly the first round's two sources are returned and
only two rounds are started — no third round is executed. -/
theorem sourcefind_C4_round_loop :
    (∀ (Src : Type) (eng : Engine Src) (nameOf : ℕ × ℕ → String)
       (c : Config) (k : Opts),
       countTsmap (find_sources eng nameOf c k).2 ≤ (resMaxIter c k).toNat) ∧
    (∀ (Src : Type) (eng : Engine Src) (nameOf : ℕ × ℕ → String)
       (c : Config) (k : Opts) (i : ℕ) (rest : List ℕ) (acc : List Src)
       (hist : List Ev),
       (_iterate eng nameOf c k hist i).1 = [] →
       findLoop eng nameOf c k (i :: rest) acc hist =
         (acc, (_iterate eng nameOf c k hist i).2)) ∧
    ((find_sources E4 nameOfPix cfgBase {}).1 = [("0_0"), ("2_0")] ∧
      countTsmap (find_sources E4 nameOfPix cfgBase {}).2 = 2) := by
  refine ⟨?_, ?_, by decide, by decide⟩
  · intro Src eng nameOf c k
    have h1 := findLoop_count eng nameOf c k
      (List.range (resMaxIter c k).toNat) [] []
    have h0 : countTsmap ([] : List Ev) = 0 := rfl
    rw [find_sources]
    rw [List.length_range] at h1
    omega
  · intro Src eng nameOf c k i rest acc hist h
    exact findLoop_stop eng nameOf c k i rest acc hist h

/-- Witness for the stop-on-zero part of C4: the all-zero engine's first
round yields no sources and the loop ends immediately with rounds 1 and 2
never run. -/
theorem sourcefind_C4_witness :
    findLoop E0 nameOfPix cfgBase {} [0, 1, 2] [] [] =
      ([], (_iterate E0 nameOfPix cfgBase {} [] 0).2) :=
  sourcefind_C4_round_loop.2.1 String E0 nameOfPix cfgBase {} 0 [1, 2] [] []
    (by decide)

theorem pySlice_nonneg {α : Type} (l : List α) (k : ℤ) (hk : 0 ≤ k) :
    pySlice l k = l.take k.toNat := by
  rw [pySlice, if_pos hk]

theorem pySlice_take {α : Type} (l : List α) (k : ℤ) :
    ∃ n : ℕ, pySlice l k = l.take n := by
  rw [pySlice]
  by_cases h : 0 ≤ k
  · exact ⟨k.toNat, if_pos h⟩
  · exact ⟨l.length - (-k).toNat, if_neg h⟩

/-- C5 amended: for a nonnegative `sources_per_iter` every round promotes at
most `sources_per_iter` peaks and the promoted list is exactly the first
`sources_per_iter` entries of the descending-sorted peak list; for every
`sources_per_iter` (Python slice semantics included) the promoted list is a
prefix of the sorted peak list; and with `sources_per_iter = 1` and three
available peaks only the single highest-amplitude peak is promoted.  The
unamended "at most `sources_per_iter`" fails for negative values, where
Python's `peaks[:k]` keeps `len + k` leading peaks (see the
counterexample). -/
theorem sourcefind_C5_promotion :
    (∀ (Src : Type) (eng : Engine Src) (c : Config) (k : Opts)
       (hist : List Ev) (i : ℕ), 0 ≤ resSpi c k →
       (promotedPeaks eng c k hist i).length ≤ (resSpi c k).toNat ∧
       promotedPeaks eng c k hist i =
         (roundPeaks eng c k hist i).take (resSpi c k).toNat) ∧
    (∀ (Src : Type) (eng : Engine Src) (c : Config) (k : Opts)
       (hist : List Ev) (i : ℕ),
       ∃ n : ℕ, promotedPeaks eng c k hist i =
         (roundPeaks eng c k hist i).take n) ∧
    (promotedPeaks E5 cfgBase { sources_per_iter := some 1 } [] 0 =
       [{ ix := 0, iy := 0, amp := 10 }] ∧
     (roundPeaks E5 cfgBase { sources_per_iter := some 1 } [] 0).length = 3) := by
  refine ⟨?_, ?_, by decide, by decide⟩
  · intro Src eng c k hist i h
    constructor
    · rw [promotedPeaks, pySlice_nonneg _ _ h]
      rw [List.length_take]
      exact min_le_left _ _
    · rw [promotedPeaks, pySlice_nonneg _ _ h]
  · intro Src eng c k hist i
    exact pySlice_take _ _

/-- Witness for the C5 amended theorem at the three-peak engine with
`sources_per_iter = 1`. -/
theorem sourcefind_C5_witness :
    (promotedPeaks E5 cfgBase { sources_per_iter := some 1 } [] 0).length ≤
      (resSpi cfgBase { sources_per_iter := some 1 }).toNat ∧
    promotedPeaks E5 cfgBase { sources_per_iter := some 1 } [] 0 =
      (roundPeaks E5 cfgBase { sources_per_iter := some 1 } [] 0).take
        (resSpi cfgBase { sources_per_iter := some 1 }).toNat :=
  sourcefind_C5_promotion.1 String E5 cfgBase { sources_per_iter := some 1 }
    [] 0 (by decide)

/-- C5 counterexample: with `sources_per_iter = -1` and three available
peaks, Python's `peaks[:-1]` promotes the two leading peaks, so "at most
`sources_per_iter` peaks are promoted" fails. -/
theorem sourcefind_C5_counterexample :
    (promotedPeaks E5 cfgBase { sources_per_iter := some (-1) } [] 0).length
      = 2 ∧
    ¬ (((promotedPeaks E5 cfgBase { sources_per_iter := some (-1) } [] 0).length
          : ℤ) ≤ resSpi cfgBase { sources_per_iter := some (-1) }) :=
  ⟨by decide, by decide⟩

theorem filterMap_addName_map {α : Type} (l : List α) (f : α → Ev)
    (g : α → String) (h : ∀ x, addName (f x) = some (g x)) :
    (l.map f).filterMap addName = l.map g := by
  induction l with
  | nil => rfl
  | cons a t ih => simp [List.filterMap_cons, h a, ih]

theorem filterMap_addName_none {α : Type} (l : List α) (f : α → Ev)
    (h : ∀ x, addName (f x) = none) : (l.map f).filterMap addName = [] := by
  induction l with
  | nil => rfl
  | cons a t ih => simp [List.filterMap_cons, h a, ih]

theorem filterMap_addName_flat (names : List String) :
    (names.flatMap (fun n => [Ev.free n true, Ev.fit, Ev.free n false])).filterMap
      addName = [] := by
  induction names with
  | nil => rfl
  | cons n t ih =>
    rw [List.flatMap_cons, List.filterMap_append, ih]
    rfl

/-- C9 amended: the core performs no duplicate-name detection: every
promoted peak is registered with the engine via `add_source`, colliding
names included — the names carried by the trace's `add` events are exactly
the round's generated name list, one entry per promoted peak, and no peak
is skipped and no warning is raised.  Whether the engine's own `add_source`
protects an existing catalog entry is outside the core. -/
theorem sourcefind_C9_no_skip {Src : Type} (eng : Engine Src)
    (nameOf : ℕ × ℕ → String) (c : Config) (k : Opts) (hist : List Ev)
    (i : ℕ) :
    (_iterate eng nameOf c k hist i).2.filterMap addName =
      hist.filterMap addName ++ roundNames eng nameOf c k hist i := by
  rw [_iterate_trace]
  rw [List.filterMap_append, List.filterMap_append, List.filterMap_append,
    List.filterMap_append, List.filterMap_append]
  have h1 : ([Ev.tsmap i] : List Ev).filterMap addName = [] := rfl
  have h2 : ((promotedPeaks eng c k hist i).map (fun p =>
      Ev.add (nameOf (p.ix, p.iy))
        (prefactorOf (eng.tsOut hist i).amplitude p) (p.ix, p.iy)
        true)).filterMap addName =
      (promotedPeaks eng c k hist i).map (fun p => nameOf (p.ix, p.iy)) :=
    filterMap_addName_map _ _ _ (fun x => rfl)
  have h3 : ((roundNames eng nameOf c k hist i).map (fun n =>
      Ev.free n false)).filterMap addName = [] :=
    filterMap_addName_none _ _ (fun x => rfl)
  have h4 := filterMap_addName_flat (roundNames eng nameOf c k hist i)
  have h5 : ((roundNames eng nameOf c k hist i).map
      Ev.roiGet).filterMap addName = [] :=
    filterMap_addName_none _ _ (fun x => rfl)
  rw [h1, h2, h3, h4, h5, roundNames]
  simp

/-- C9 counterexample: with a name generator whose truncated coordinate
encoding assigns both promoted peaks the same name, the round registers the
colliding name twice — the trace holds two `add` events named `PS` — rather
than skipping the conflicting peak or raising a warning. -/
theorem sourcefind_C9_counterexample :
    roundNames E5 nameOfConst cfgBase {} [] 0 = [("PS"), ("PS")] ∧
    (_iterate E5 nameOfConst cfgBase {} [] 0).2.filterMap addName =
      [("PS"), ("PS")] :=
  ⟨by decide, by decide⟩

/-- C8 amended: `find_sources` validates neither `max_iter` nor
`min_separation`.  A non-positive `max_iter` is not rejected: the loop
simply runs zero rounds and the call returns the empty result normally.  A
non-positive `min_separation` is not rejected before the loop either: the
first round starts and its `tsmap` engine call is issued, the separation
being passed through to `find_peaks` unvalidated. -/
theorem sourcefind_C8_no_validation :
    (∀ (Src : Type) (eng : Engine Src) (nameOf : ℕ × ℕ → String)
       (c : Config) (k : Opts), resMaxIter c k ≤ 0 →
       find_sources eng nameOf c k = ([], [])) ∧
    Ev.tsmap 0 ∈ (find_sources E0 nameOfPix cfgBase
      { max_iter := some 1, min_separation := some (-1) }).2 := by
  refine ⟨?_, by decide⟩
  intro Src eng nameOf c k h
  rw [find_sources]
  have h0 : (resMaxIter c k).toNat = 0 := by omega
  rw [h0]
  rfl

/-- Witness for the C8 amended theorem: `max_iter = 0` yields the empty
result with no engine calls. -/
theorem sourcefind_C8_witness :
    find_sources E0 nameOfPix cfgBase { max_iter := some 0 } = ([], []) :=
  sourcefind_C8_no_validation.1 String E0 nameOfPix cfgBase
    { max_iter := some 0 } (by decide)

/-- C8 counterexample: with the non-positive `max_iter = -1`,
`find_sources` does not fail and is not rejected before the loop — it
returns the empty result normally, never raising a configuration error. -/
theorem sourcefind_C8_counterexample :
    find_sources E0 nameOfPix cfgBase { max_iter := some (-1) } =
      (([] : List String), ([] : List Ev)) := by
  decide
